import Mathlib

/-!
Shallow embedding of the combination-generation core of
`COOL_CRAFT_WEBAPP.py` (combo generator, row resolver, capacity-column
detection), together with theorems settling the frozen claims about it.

Modelling conventions: Python floats are modelled as exact rationals (`ℚ`)
and Python ints as `ℤ`; Python dicts (insertion-ordered, unique keys) are
association lists updated in place; a raised Python exception is an
`Except Unit` error value.
-/

namespace CoolCraft

attribute [local semireducible] Rat.add Rat.mul Rat.sub Rat.inv

/-- Python `int(round(x))`: rounding half to even (banker's rounding), as
`round` behaves on Python floats.  Uses the executable `Rat.floor`. -/
def pyRound (q : ℚ) : ℤ :=
  if q - q.floor < 1/2 then q.floor
  else if 1/2 < q - q.floor then q.floor + 1
  else if q.floor % 2 = 0 then q.floor else q.floor + 1

/-- Python `math.ceil` on an exact rational. -/
def pyCeil (q : ℚ) : ℤ := -(Rat.floor (-q))

/-- A combo, as the Python dict mapping unit size to count: an
insertion-ordered association list with unique keys. -/
abbrev Combo := List (ℚ × ℤ)

/-- Python dict assignment `d[k] = v`: replace the value at an existing key
in place (keeping its position), else append the new binding. -/
def dictSet {α β : Type} [DecidableEq α] : List (α × β) → α → β → List (α × β)
  | [], k, v => [(k, v)]
  | p :: rest, k, v => if p.1 = k then (k, v) :: rest else p :: dictSet rest k v

/-- Python `d.get(k, dflt)`. -/
def dictGetD {α β : Type} [DecidableEq α] : List (α × β) → α → β → β
  | [], _, dflt => dflt
  | p :: rest, k, dflt => if p.1 = k then p.2 else dictGetD rest k dflt

/-- Python tuple comparison `(k1,v1) >= (k2,v2)` (lexicographic), the order
used by `sorted(combo.items(), reverse=True)`. -/
def pairDesc (p q : ℚ × ℤ) : Prop := q.1 < p.1 ∨ (q.1 = p.1 ∧ q.2 ≤ p.2)

instance : DecidableRel pairDesc := fun p q => by
  unfold pairDesc; infer_instance

/-- Python `sorted(combo.items(), reverse=True)`: the items sorted in
descending lexicographic order (a stable sort). -/
def sortedItemsDesc (c : Combo) : Combo := List.insertionSort pairDesc c

/-- Python `expand_combo_instances(combo)`: one entry per physical unit, sizes
sorted descending, each repeated per its count (Python `[hp] * cnt` is empty
for `cnt ≤ 0`). -/
def expand_combo_instances (c : Combo) : List ℚ :=
  (sortedItemsDesc c).flatMap (fun p => List.replicate p.2.toNat p.1)

/-- Python `min(sizes)` on a non-empty list (`0` as an unreachable default
for the empty list, on which Python raises). -/
def pyMin : List ℚ → ℚ
  | [] => 0
  | x :: xs => xs.foldl min x

/-- One iteration of the `for s in sizes` loop of `greedy_combo`:
`cnt = rem // s; if cnt > 0: combo[s] = int(cnt); rem -= s * cnt`.
The accumulator is the pair `(rem, combo)`. -/
def greedyStep (acc : ℚ × Combo) (s : ℚ) : ℚ × Combo :=
  let cnt : ℤ := (acc.1 / s).floor
  if 0 < cnt then (acc.1 - s * cnt, dictSet acc.2 s cnt) else acc

/-- Python `greedy_combo(target_cap, sizes)`: the loop above over `sizes` in the
order given, starting from `rem = int(round(target_cap))`, then
`if rem > 0 and sizes: combo[min(sizes)] = combo.get(min(sizes), 0) + 1`. -/
def greedy_combo (target_cap : ℚ) (sizes : List ℚ) : Combo :=
  let fin := sizes.foldl greedyStep (((pyRound target_cap : ℤ) : ℚ), [])
  if 0 < fin.1 ∧ sizes ≠ [] then
    dictSet fin.2 (pyMin sizes) (dictGetD fin.2 (pyMin sizes) 0 + 1)
  else fin.2

/-- The single-size candidate `{s: ceil(target_cap / s)}`. -/
def singleCombo (target_cap s : ℚ) : Combo := [(s, pyCeil (target_cap / s))]

/-- The raw candidate list of `generate_candidate_combos`: the greedy combo
followed by one single-size candidate for each of the first six sizes (in
the order given). -/
def rawCandidates (target_cap : ℚ) (sizes : List ℚ) : List Combo :=
  greedy_combo target_cap sizes :: (sizes.take 6).map (singleCombo target_cap)

/-- The dict comprehension
`{tuple(sorted(c.items(), reverse=True)): c for c in raw}`: keys keep their
first-insertion position, the last value for a key wins. -/
def uniqPairs (target_cap : ℚ) (sizes : List ℚ) : List (Combo × Combo) :=
  (rawCandidates target_cap sizes).foldl
    (fun acc c => dictSet acc (sortedItemsDesc c) c) []

/-- Python `list(uniq.values())`: the deduplicated candidates. -/
def uniqValues (target_cap : ℚ) (sizes : List ℚ) : List Combo :=
  (uniqPairs target_cap sizes).map Prod.snd

/-- Python `total = sum(expand_combo_instances(c))`. -/
def comboTotal (c : Combo) : ℚ := (expand_combo_instances c).sum

/-- Python `units = sum(c.values())`. -/
def comboUnits (c : Combo) : ℤ := (c.map Prod.snd).sum

/-- The candidate score `0.6 * closeness + 0.4 * unit_score` (the float
literals modelled as exact rationals). -/
def scoreOf (target_cap : ℚ) (c : Combo) : ℚ :=
  let closeness := 1 / (1 + |comboTotal c - target_cap| / max 1 target_cap)
  let unitScore := 1 / (1 + (comboUnits c : ℚ))
  6/10 * closeness + 4/10 * unitScore

/-- The comparison realising Python's
`scored.sort(key=lambda x: x[0], reverse=True)`: descending by score. -/
def scoreGE (a b : ℚ × Combo) : Prop := b.1 ≤ a.1

instance : DecidableRel scoreGE := fun a b => by
  unfold scoreGE; infer_instance

/-- Python `generate_candidate_combos(target_cap, sizes, max_suggestions)`.
Python's `list.sort` is a stable sort; it is embedded as a stable
insertion sort, which produces the identical list for the same (total,
transitive) comparison. -/
def generate_candidate_combos (target_cap : ℚ) (sizes : List ℚ)
    (maxSuggestions : ℕ) : List Combo :=
  let combos := (uniqValues target_cap sizes).take maxSuggestions
  let scored := combos.map (fun c => (scoreOf target_cap c, c))
  (scored.insertionSort scoreGE).map Prod.snd

/-! Row resolution (`find_nearest_row` and the two enrichment loops). -/

/-- A catalog abstracted to the data row resolution inspects: for each row,
in original order, the capacity-column value as coerced by
`pd.to_numeric(..., errors='coerce')` (`none` models NaN / non-numeric). -/
abbrev Catalog := List (Option ℚ)

/-- Python mask lookup
`df[pd.to_numeric(df[cap_col], errors='coerce') == float(cap)]` followed by
`.iloc[0]`: the position of the first row whose coerced capacity equals
`cap` (a NaN compares unequal). -/
def exactIdx : Catalog → ℚ → Option ℕ
  | [], _ => none
  | o :: rest, cap =>
    if o = some cap then some 0 else (exactIdx rest cap).map (· + 1)

/-- The rows carrying a numeric capacity, each with its position, positions
starting at `i`. -/
def numEntries : Catalog → ℕ → List (ℕ × ℚ)
  | [], _ => []
  | some v :: rest, i => (i, v) :: numEntries rest (i + 1)
  | none :: rest, i => numEntries rest (i + 1)

/-- Pandas `Series.idxmin` over the distances `|value - cap|`: the first
position attaining the minimal distance (NaNs already removed). -/
def idxminAux (cap : ℚ) : List (ℕ × ℚ) → Option (ℕ × ℚ)
  | [] => none
  | e :: rest =>
    match idxminAux cap rest with
    | none => some e
    | some f => if |f.2 - cap| < |e.2 - cap| then some f else some e

/-- Python `find_nearest_row(df, target_val, cap_col)`, returning the chosen
row's position:
`diffs = (pd.to_numeric(df[cap_col], errors='coerce') - target_val).abs()`,
`idx = diffs.idxmin()`, `df.loc[idx] if pd.notna(idx) else None` — a column
with no numeric value makes `idxmin` yield NaN, guarded to `None`. -/
def find_nearest_row (cats : Catalog) (target_val : ℚ) : Option ℕ :=
  (idxminAux target_val (numEntries cats 0)).map Prod.fst

/-- The row-resolution order of the automatic loop: exact match first, then
nearest neighbour. -/
def resolveIdx (cats : Catalog) (cap : ℚ) : Option ℕ :=
  match exactIdx cats cap with
  | some i => some i
  | none => find_nearest_row cats cap

/-- A resolved row of an enrichment loop: a catalog row (by position), or
the manual branch's `{'_cap_input': cap}` placeholder dict. -/
inductive RRow : Type
  | fromCatalog (idx : ℕ)
  | placeholder (cap : ℚ)
deriving DecidableEq

/-- One automatic-loop body:
`chosen = exact.iloc[0].to_dict() if not exact.empty else find_nearest_row(df, cap, cap_col).to_dict()`.
When neither resolves, Python evaluates `None.to_dict()`, raising
`AttributeError` — modelled as the error case. -/
def autoChosen (cats : Catalog) (cap : ℚ) : Except Unit RRow :=
  match resolveIdx cats cap with
  | some i => .ok (.fromCatalog i)
  | none => .error ()

/-- The automatic enrichment loop over the expanded instances, attaching
the 1-based `_instance` index (`idx + 1`); an exception aborts the loop. -/
def autoEnrich (cats : Catalog) : List ℚ → ℕ → Except Unit (List (ℕ × RRow))
  | [], _ => .ok []
  | cap :: rest, idx =>
    match autoChosen cats cap with
    | .error e => .error e
    | .ok r =>
      match autoEnrich cats rest (idx + 1) with
      | .error e => .error e
      | .ok tl => .ok ((idx + 1, r) :: tl)

/-- One manual-loop body:
`nearest = find_nearest_row(df, cap, cap_col) if cap_col else {}` then
`chosen = nearest.to_dict() if nearest is not None else {'_cap_input': cap}`.
With no capacity column, `nearest = {}` is not `None` and `{}.to_dict()`
raises `AttributeError` (the error case); otherwise a `None` from
`find_nearest_row` becomes the placeholder row. -/
def manualChosen (capColFound : Bool) (cats : Catalog) (cap : ℚ) :
    Except Unit RRow :=
  if capColFound then
    match find_nearest_row cats cap with
    | some i => .ok (.fromCatalog i)
    | none => .ok (.placeholder cap)
  else .error ()

/-- The manual enrichment loop over the user-entered sizes in entry order,
attaching the 1-based `_instance` index. -/
def manualEnrich (capColFound : Bool) (cats : Catalog) :
    List ℚ → ℕ → Except Unit (List (ℕ × RRow))
  | [], _ => .ok []
  | cap :: rest, idx =>
    match manualChosen capColFound cats cap with
    | .error e => .error e
    | .ok r =>
      match manualEnrich capColFound cats rest (idx + 1) with
      | .error e => .error e
      | .ok tl => .ok ((idx + 1, r) :: tl)

/-! Capacity-column detection (`normalize_name`,
`find_capacity_column_by_type`). -/

/-- Python substring containment `needle in hay`. -/
def hasSubstr (needle : List Char) : List Char → Bool
  | [] => needle.isEmpty
  | c :: rest => needle.isPrefixOf (c :: rest) || hasSubstr needle rest

/-- Regex word characters, for the `\b` boundaries of `r'\bhp\b'`. -/
def isWordChar (c : Char) : Bool := c.isAlphanum || c = '_'

/-- The `\b` boundary conditions of `r'\bhp\b'`: no word character just
before the match (`prev`) and none just after (`rest2`). -/
def boundaryOK (prev : Option Char) (rest2 : List Char) : Bool :=
  (match prev with | none => true | some q => !isWordChar q) &&
  (match rest2 with | [] => true | q :: _ => !isWordChar q)

/-- Python `re.search(r'\bhp\b', norm)`: some position starts `hp` with no
word character adjacent on either side; `prev` is the character preceding
the scan position. -/
def hasWordHP : Option Char → List Char → Bool
  | _, [] => false
  | prev, c :: rest =>
    (match rest with
     | p :: rest2 => c = 'h' && p = 'p' && boundaryOK prev rest2
     | [] => false) ||
    hasWordHP (some c) rest

/-- Python `str.strip()` (Lean's `Char.isWhitespace` standing for Python's
whitespace class). -/
def pyStrip (s : List Char) : List Char :=
  ((s.dropWhile Char.isWhitespace).reverse.dropWhile Char.isWhitespace).reverse

/-- Python `re.sub(r'\s+', ' ', s)`: each whitespace run becomes one space;
`inRun` records whether the previous character was whitespace. -/
def collapseWS : Bool → List Char → List Char
  | _, [] => []
  | inRun, c :: rest =>
    if c.isWhitespace then
      if inRun then collapseWS true rest else ' ' :: collapseWS true rest
    else c :: collapseWS false rest

/-- Python `normalize_name(s)`: strip, lowercase, collapse whitespace runs,
then remove zero-width spaces. -/
def normalize_name (s : List Char) : List Char :=
  (collapseWS false ((pyStrip s).map Char.toLower)).filter
    (fun c => c ≠ '\u200B')

/-- Python `find_capacity_column_by_type(df, unit_type)` over the ordered
column names; each `for orig, norm in norm_map.items()` pass with an early
`return` is a `find?`. -/
def find_capacity_column_by_type (cols : List (List Char))
    (unit_type : List Char) : Option (List Char) :=
  if unit_type.map Char.toLower = "indoor".toList then
    match cols.find? (fun c =>
        hasSubstr "cooling capacity".toList (normalize_name c) &&
        hasSubstr "kw".toList (normalize_name c)) with
    | some c => some c
    | none =>
      match cols.find? (fun c =>
          hasSubstr "capacity".toList (normalize_name c) &&
          hasSubstr "kw".toList (normalize_name c)) with
      | some c => some c
      | none => cols.find? (fun c => hasSubstr "kw".toList (normalize_name c))
  else
    match cols.find? (fun c =>
        hasSubstr "hp".toList (normalize_name c) &&
        (hasSubstr "capacity".toList (normalize_name c) ||
         hasSubstr "hp".toList (normalize_name c))) with
    | some c => some c
    | none =>
      match cols.find? (fun c =>
          hasSubstr "horsepower".toList (normalize_name c) ||
          hasWordHP none (normalize_name c)) with
      | some c => some c
      | none =>
        cols.find? (fun c =>
          hasSubstr "capacity".toList (normalize_name c) &&
          (hasSubstr "hp".toList (normalize_name c) ||
           hasSubstr "horsepower".toList (normalize_name c)))

/-- Total capacity read directly off the association list,
`Σ size * count` with the signed count. -/
def comboTotalI (c : Combo) : ℚ := (c.map (fun p => p.1 * (p.2 : ℚ))).sum

/-- The expected manual-path rows when nothing resolves: one placeholder
per entered size, tagged with the 1-based instance index. -/
def placeholderRows : List ℚ → ℕ → List (ℕ × RRow)
  | [], _ => []
  | cap :: rest, idx =>
    (idx + 1, RRow.placeholder cap) :: placeholderRows rest (idx + 1)

instance : IsTotal (ℚ × Combo) scoreGE := ⟨fun a b => le_total b.1 a.1⟩

instance : IsTrans (ℚ × Combo) scoreGE :=
  ⟨fun _ _ _ hab hbc => le_trans hbc hab⟩

/-! Basic lemmas about the dict operations and the greedy fold. -/

/-- The executable `Rat.floor` agrees with Mathlib's `⌊⌋`. -/
lemma ratFloor_eq (q : ℚ) : q.floor = ⌊q⌋ :=
  (Rat.floor_def' q).trans Rat.floor_def.symm

/-- The executable `pyCeil` agrees with Mathlib's `⌈⌉`. -/
lemma pyCeil_eq (q : ℚ) : pyCeil q = ⌈q⌉ := by
  rw [pyCeil, ratFloor_eq, Int.floor_neg, neg_neg]

lemma dictSet_mem {α β : Type} [DecidableEq α] {d : List (α × β)} {k : α}
    {v : β} {p : α × β} (h : p ∈ dictSet d k v) : p ∈ d ∨ p = (k, v) := by
  induction d with
  | nil => simpa [dictSet] using h
  | cons q rest ih =>
    rw [dictSet] at h
    by_cases hq : q.1 = k
    · rw [if_pos hq] at h
      rcases List.mem_cons.1 h with h | h
      · exact Or.inr h
      · exact Or.inl (List.mem_cons_of_mem _ h)
    · rw [if_neg hq] at h
      rcases List.mem_cons.1 h with h | h
      · exact Or.inl (h ▸ List.mem_cons_self _ _)
      · rcases ih h with h | h
        · exact Or.inl (List.mem_cons_of_mem _ h)
        · exact Or.inr h

lemma dictSet_ne_nil {α β : Type} [DecidableEq α] (d : List (α × β)) (k : α)
    (v : β) : dictSet d k v ≠ [] := by
  cases d with
  | nil => simp [dictSet]
  | cons q rest =>
    rw [dictSet]
    by_cases hq : q.1 = k
    · simp [hq]
    · simp [hq]

lemma dictSet_length_le {α β : Type} [DecidableEq α] (d : List (α × β))
    (k : α) (v : β) : (dictSet d k v).length ≤ d.length + 1 := by
  induction d with
  | nil => simp [dictSet]
  | cons q rest ih =>
    rw [dictSet]
    by_cases hq : q.1 = k
    · simp [hq]
    · simpa [hq] using Nat.succ_le_succ ih

lemma dictGetD_zero_or_mem (d : Combo) (k : ℚ) :
    dictGetD d k 0 = 0 ∨ ∃ p ∈ d, p.1 = k ∧ p.2 = dictGetD d k 0 := by
  induction d with
  | nil => exact Or.inl rfl
  | cons q rest ih =>
    rw [dictGetD]
    by_cases hq : q.1 = k
    · exact Or.inr ⟨q, List.mem_cons_self _ _, hq, by rw [if_pos hq]⟩
    · rw [if_neg hq]
      rcases ih with h | ⟨p, hp, hk, hv⟩
      · exact Or.inl h
      · exact Or.inr ⟨p, List.mem_cons_of_mem _ hp, hk, hv⟩

lemma comboTotalI_dictSet_absent {c : Combo} {k : ℚ} {v : ℤ}
    (h : ∀ p ∈ c, p.1 ≠ k) :
    comboTotalI (dictSet c k v) = comboTotalI c + k * v := by
  induction c with
  | nil => simp [dictSet, comboTotalI]
  | cons q rest ih =>
    have hq : q.1 ≠ k := h q (List.mem_cons_self _ _)
    rw [dictSet, if_neg hq]
    have := ih (fun p hp => h p (List.mem_cons_of_mem _ hp))
    simp only [comboTotalI, List.map_cons, List.sum_cons] at this ⊢
    rw [this]; ring

lemma comboTotalI_dictSet_incr (c : Combo) (k : ℚ) :
    comboTotalI (dictSet c k (dictGetD c k 0 + 1)) = comboTotalI c + k := by
  induction c with
  | nil => simp [dictSet, dictGetD, comboTotalI]
  | cons q rest ih =>
    rw [dictSet, dictGetD]
    by_cases hq : q.1 = k
    · rw [if_pos hq, if_pos hq]
      simp only [comboTotalI, List.map_cons, List.sum_cons]
      rw [← hq]; push_cast; ring
    · rw [if_neg hq, if_neg hq]
      simp only [comboTotalI, List.map_cons, List.sum_cons] at ih ⊢
      rw [ih]; ring

lemma pyMin_mem : ∀ (sizes : List ℚ), sizes ≠ [] → pyMin sizes ∈ sizes := by
  have aux : ∀ (xs : List ℚ) (x : ℚ), xs.foldl min x ∈ x :: xs := by
    intro xs
    induction xs with
    | nil => intro x; simp
    | cons y ys ih =>
      intro x
      have := ih (min x y)
      rcases List.mem_cons.1 this with h | h
      · rcases min_choice x y with hm | hm
        · exact List.mem_cons.2 (Or.inl (by rw [List.foldl_cons, h, hm]))
        · refine List.mem_cons.2 (Or.inr (List.mem_cons.2 (Or.inl ?_)))
          rw [List.foldl_cons, h, hm]
      · exact List.mem_cons.2 (Or.inr (List.mem_cons.2 (Or.inr
          (by rw [List.foldl_cons]; exact h))))
  intro sizes h
  cases sizes with
  | nil => exact absurd rfl h
  | cons x xs => exact aux xs x

/-- The invariants of the `for s in sizes` loop of `greedy_combo`, for a
non-negative remainder: the remainder stays in `[0, r]` and ends below every
processed size, the total grows by exactly the consumed remainder, and every
new entry has count at least 1 and a key from the size list. -/
lemma greedyFold_inv :
    ∀ (l : List ℚ), (∀ s ∈ l, 0 < s) →
    ∀ (r : ℚ) (c : Combo), 0 ≤ r →
    (∀ s ∈ l, (∃ p ∈ c, p.1 = s) → r < s) →
    0 ≤ (l.foldl greedyStep (r, c)).1 ∧
    (l.foldl greedyStep (r, c)).1 ≤ r ∧
    comboTotalI (l.foldl greedyStep (r, c)).2 =
      comboTotalI c + (r - (l.foldl greedyStep (r, c)).1) ∧
    (∀ s ∈ l, (l.foldl greedyStep (r, c)).1 < s) ∧
    (∀ p ∈ (l.foldl greedyStep (r, c)).2, p ∈ c ∨ (p.1 ∈ l ∧ 1 ≤ p.2)) := by
  intro l
  induction l with
  | nil =>
    intro _ r c hr _
    refine ⟨hr, le_refl r, by simp, by simp, fun p hp => Or.inl hp⟩
  | cons s rest ih =>
    intro hpos r c hr hkeys
    have hs : 0 < s := hpos s (List.mem_cons_self _ _)
    have hrest : ∀ t ∈ rest, 0 < t :=
      fun t ht => hpos t (List.mem_cons_of_mem _ ht)
    rw [List.foldl_cons]
    by_cases hcnt : 0 < (r / s).floor
    · -- the size is taken: cnt = floor(r / s) ≥ 1
      have hstep : greedyStep (r, c) s =
          (r - s * ((r / s).floor : ℚ), dictSet c s (r / s).floor) := by
        show (if 0 < (r / s).floor then _ else _) = _
        rw [if_pos hcnt]
      have hfl : ((r / s).floor : ℚ) ≤ r / s := by
        rw [ratFloor_eq]; exact Int.floor_le _
      have hfl2 : r / s < ((r / s).floor : ℚ) + 1 := by
        rw [ratFloor_eq]; exact Int.lt_floor_add_one _
      have hr' : 0 ≤ r - s * ((r / s).floor : ℚ) := by
        have := mul_le_mul_of_nonneg_left hfl (le_of_lt hs)
        rw [mul_div_cancel₀ _ (ne_of_gt hs)] at this
        linarith
      have hrlt : r - s * ((r / s).floor : ℚ) < s := by
        have := mul_lt_mul_of_pos_left hfl2 hs
        rw [mul_div_cancel₀ _ (ne_of_gt hs), mul_add, mul_one] at this
        linarith
      have hsub : r - s * ((r / s).floor : ℚ) ≤ r := by
        have hfl0 : (0 : ℚ) ≤ ((r / s).floor : ℚ) := by
          exact_mod_cast le_of_lt hcnt
        nlinarith
      have hknone : ∀ p ∈ c, p.1 ≠ s := by
        intro p hp hps
        have h1 := hkeys s (List.mem_cons_self _ _) ⟨p, hp, hps⟩
        have h2 : r / s < 1 := (div_lt_one hs).2 h1
        have h3 : (r / s).floor < 1 := by
          rw [ratFloor_eq]
          exact Int.floor_lt.2 (by exact_mod_cast h2)
        omega
      have hkeys' : ∀ t ∈ rest,
          (∃ p ∈ dictSet c s (r / s).floor, p.1 = t) →
          r - s * ((r / s).floor : ℚ) < t := by
        intro t ht ⟨p, hp, hpt⟩
        rcases dictSet_mem hp with hp | hp
        · have := hkeys t (List.mem_cons_of_mem _ ht) ⟨p, hp, hpt⟩
          linarith
        · rw [hp] at hpt
          simp only at hpt
          rw [← hpt]; exact hrlt
      have IH := ih hrest (r - s * ((r / s).floor : ℚ))
        (dictSet c s (r / s).floor) hr' hkeys'
      rw [hstep]
      obtain ⟨I1, I2, I3, I4, I5⟩ := IH
      refine ⟨I1, le_trans I2 hsub, ?_, ?_, ?_⟩
      · rw [I3, comboTotalI_dictSet_absent hknone]; ring
      · intro t ht
        rcases List.mem_cons.1 ht with h | h
        · rw [h]; linarith
        · exact I4 t h
      · intro p hp
        rcases I5 p hp with hp | hp
        · rcases dictSet_mem hp with hp | hp
          · exact Or.inl hp
          · refine Or.inr ⟨?_, ?_⟩
            · rw [hp]; exact List.mem_cons_self _ _
            · rw [hp]; simpa using hcnt
        · exact Or.inr ⟨List.mem_cons_of_mem _ hp.1, hp.2⟩
    · -- the size is skipped: cnt ≤ 0, which with 0 ≤ r forces r < s
      have hstep : greedyStep (r, c) s = (r, c) := by
        show (if 0 < (r / s).floor then _ else _) = _
        rw [if_neg hcnt]
      have hrs : r < s := by
        by_contra hge
        push_neg at hge
        have h1 : (1 : ℚ) ≤ r / s := (one_le_div hs).2 hge
        have h2 : (1 : ℤ) ≤ (r / s).floor := by
          rw [ratFloor_eq]
          exact Int.le_floor.2 (by exact_mod_cast h1)
        omega
      have hkeys' : ∀ t ∈ rest, (∃ p ∈ c, p.1 = t) → r < t :=
        fun t ht h => hkeys t (List.mem_cons_of_mem _ ht) h
      have IH := ih hrest r c hr hkeys'
      rw [hstep]
      obtain ⟨I1, I2, I3, I4, I5⟩ := IH
      refine ⟨I1, I2, I3, ?_, fun p hp => (I5 p hp).imp id
        (fun h => ⟨List.mem_cons_of_mem _ h.1, h.2⟩)⟩
      intro t ht
      rcases List.mem_cons.1 ht with h | h
      · rw [h]; linarith
      · exact I4 t h

/-- With a non-positive remainder and positive sizes the greedy loop is a
no-op. -/
lemma greedyFold_nonpos :
    ∀ (l : List ℚ), (∀ s ∈ l, 0 < s) → ∀ (r : ℚ) (c : Combo), r ≤ 0 →
    l.foldl greedyStep (r, c) = (r, c) := by
  intro l
  induction l with
  | nil => intro _ r c _; rfl
  | cons s rest ih =>
    intro hpos r c hr
    have hs : 0 < s := hpos s (List.mem_cons_self _ _)
    have hcnt : ¬ 0 < (r / s).floor := by
      have h1 : r / s ≤ 0 := div_nonpos_of_nonpos_of_nonneg hr (le_of_lt hs)
      have h2 : (r / s).floor ≤ 0 := by
        rw [ratFloor_eq]
        simpa using Int.floor_le_floor h1
      omega
    have hstep : greedyStep (r, c) s = (r, c) := by
      show (if 0 < (r / s).floor then _ else _) = _
      rw [if_neg hcnt]
    rw [List.foldl_cons, hstep]
    exact ih (fun t ht => hpos t (List.mem_cons_of_mem _ ht)) r c hr

lemma flatMap_replicate_sum : ∀ (l : Combo),
    (l.flatMap (fun p => List.replicate p.2.toNat p.1)).sum =
    (l.map (fun p => p.1 * (p.2.toNat : ℚ))).sum := by
  intro l
  induction l with
  | nil => simp
  | cons p rest ih =>
    simp only [List.flatMap_cons, List.sum_append, List.map_cons,
      List.sum_cons, ih]
    congr 1
    rw [List.sum_replicate, nsmul_eq_mul, mul_comm]

/-- On a combo with non-negative counts, the code's expansion-based total
equals the direct `Σ size * count`. -/
lemma comboTotal_eq_totalI (c : Combo) (h : ∀ p ∈ c, 0 ≤ p.2) :
    comboTotal c = comboTotalI c := by
  rw [comboTotal, expand_combo_instances, flatMap_replicate_sum]
  have hperm : List.Perm (sortedItemsDesc c) c := List.perm_insertionSort _ _
  rw [(hperm.map (fun p => p.1 * (p.2.toNat : ℚ))).sum_eq, comboTotalI]
  congr 1
  apply List.map_congr_left
  intro p hp
  have h1 : ((p.2.toNat : ℚ)) = (p.2 : ℚ) := by
    exact_mod_cast Int.toNat_of_nonneg (h p hp)
  rw [h1]

lemma greedy_entries (target_cap : ℚ) (sizes : List ℚ)
    (hpos : ∀ s ∈ sizes, 0 < s) :
    ∀ p ∈ greedy_combo target_cap sizes, p.1 ∈ sizes ∧ 1 ≤ p.2 := by
  simp only [greedy_combo]
  rcases le_or_lt 0 ((pyRound target_cap : ℤ) : ℚ) with h0 | h0
  · obtain ⟨I1, I2, I3, I4, I5⟩ := greedyFold_inv sizes hpos _ [] h0
      (by rintro s _ ⟨p, hp, -⟩; cases hp)
    split_ifs with hif
    · intro p hp
      rcases dictSet_mem hp with hp | hp
      · rcases I5 p hp with hp | hp
        · cases hp
        · exact hp
      · rw [hp]
        refine ⟨pyMin_mem sizes hif.2, ?_⟩
        rcases dictGetD_zero_or_mem
            (sizes.foldl greedyStep (((pyRound target_cap : ℤ) : ℚ), [])).2
            (pyMin sizes) with h | ⟨q, hq, -, hv⟩
        · rw [h]; norm_num
        · rcases I5 q hq with hq' | hq'
          · cases hq'
          · simp only
            omega
    · intro p hp
      rcases I5 p hp with hp | hp
      · cases hp
      · exact hp
  · rw [greedyFold_nonpos sizes hpos _ [] (le_of_lt h0)]
    split_ifs with hif
    · exfalso
      have := hif.1
      simp only at this
      linarith
    · intro p hp; cases hp

lemma greedy_totalI (target_cap : ℚ) (sizes : List ℚ) (hne : sizes ≠ [])
    (hpos : ∀ s ∈ sizes, 0 < s) :
    (pyRound target_cap : ℚ) ≤ comboTotalI (greedy_combo target_cap sizes) := by
  have hmin := pyMin_mem sizes hne
  simp only [greedy_combo]
  rcases le_or_lt 0 ((pyRound target_cap : ℤ) : ℚ) with h0 | h0
  · obtain ⟨I1, I2, I3, I4, I5⟩ := greedyFold_inv sizes hpos _ [] h0
      (by rintro s _ ⟨p, hp, -⟩; cases hp)
    have hnil : comboTotalI ([] : Combo) = 0 := by simp [comboTotalI]
    rw [hnil, zero_add] at I3
    split_ifs with hif
    · rw [comboTotalI_dictSet_incr, I3]
      have := I4 (pyMin sizes) hmin
      linarith
    · have hF : ¬ 0 <
          (sizes.foldl greedyStep (((pyRound target_cap : ℤ) : ℚ), [])).1 := by
        intro h
        exact hif ⟨h, hne⟩
      rw [I3]
      linarith [le_antisymm (not_lt.1 hF) I1]
  · rw [greedyFold_nonpos sizes hpos _ [] (le_of_lt h0)]
    split_ifs with hif
    · exfalso
      have := hif.1
      simp only at this
      linarith
    · simp only [comboTotalI, List.map_nil, List.sum_nil]
      exact le_of_lt h0

lemma greedy_ne_nil (target_cap : ℚ) (sizes : List ℚ)
    (h1 : 1 ≤ pyRound target_cap) (hne : sizes ≠ [])
    (hpos : ∀ s ∈ sizes, 0 < s) : greedy_combo target_cap sizes ≠ [] := by
  simp only [greedy_combo]
  have h0 : 0 ≤ ((pyRound target_cap : ℤ) : ℚ) := by
    have : (0 : ℤ) ≤ pyRound target_cap := by omega
    exact_mod_cast this
  obtain ⟨I1, I2, I3, I4, I5⟩ := greedyFold_inv sizes hpos _ [] h0
    (by rintro s _ ⟨p, hp, -⟩; cases hp)
  have hnil : comboTotalI ([] : Combo) = 0 := by simp [comboTotalI]
  rw [hnil, zero_add] at I3
  split_ifs with hif
  · exact dictSet_ne_nil _ _ _
  · have hF : ¬ 0 <
        (sizes.foldl greedyStep (((pyRound target_cap : ℤ) : ℚ), [])).1 := by
      intro h
      exact hif ⟨h, hne⟩
    have hF0 := le_antisymm (not_lt.1 hF) I1
    intro hnil
    rw [hnil] at I3
    simp only [comboTotalI, List.map_nil, List.sum_nil] at I3
    have : ((pyRound target_cap : ℤ) : ℚ) = 0 := by linarith
    have : (pyRound target_cap : ℤ) = 0 := by exact_mod_cast this
    omega

/-- C6: for every non-empty list of positive sizes and every target, the
greedy candidate, after the remainder-absorption step, has total capacity
`Σ size * count` at least `round(target)`. -/
theorem C6_greedy_total_ge_round (target_cap : ℚ) (sizes : List ℚ)
    (hne : sizes ≠ []) (hpos : ∀ s ∈ sizes, 0 < s) :
    (pyRound target_cap : ℚ) ≤ comboTotal (greedy_combo target_cap sizes) := by
  rw [comboTotal_eq_totalI _ (fun p hp => by
    have := (greedy_entries target_cap sizes hpos p hp).2; omega)]
  exact greedy_totalI target_cap sizes hne hpos

/-- Witness for C6 at `target = 17`, `sizes = [2, 3, 5, 8]`. -/
theorem C6_witness :
    (pyRound 17 : ℚ) ≤ comboTotal (greedy_combo 17 [2, 3, 5, 8]) :=
  C6_greedy_total_ge_round 17 [2, 3, 5, 8] (by decide) (by decide)

/-- C1 counterexample: with `sizes = [2, 3, 5, 8]` (ascending, the order the
application passes) and `target = 17`, the combo `{8: 2, 2: 1}` does not
appear among the returned candidates — the greedy loop iterates the sizes in
the order given and never sorts them descending. -/
theorem C1_cex :
    ((generate_candidate_combos 17 [2, 3, 5, 8] 12).map
      sortedItemsDesc).contains [(8, 2), (2, 1)] = false := by decide

/-- C1 amended: the greedy candidate iterates the sizes in the order given
(no descending sort).  With the ascending `[2, 3, 5, 8]` and target 17 the
greedy candidate is `{2: 9}`; the combo `{8: 2, 2: 1}` arises, and appears
among the returned candidates, exactly when the sizes are supplied
largest-first, e.g. `[8, 5, 3, 2]`. -/
theorem C1_amended :
    greedy_combo 17 [2, 3, 5, 8] = [(2, 9)] ∧
    greedy_combo 17 [8, 5, 3, 2] = [(8, 2), (2, 1)] ∧
    ((generate_candidate_combos 17 [8, 5, 3, 2] 12).map
      sortedItemsDesc).contains [(8, 2), (2, 1)] = true := by decide

/-- C3 counterexample: called with an empty size list (and target 10),
`generate_candidate_combos` raises nothing and returns a list holding one
empty combo — it does not fail with an InvalidInput-kind error. -/
theorem C3_cex : generate_candidate_combos 10 [] 12 = [[]] := by decide

/-- C3 amended: with an empty size list the generator raises no error at
all: for every target it returns exactly `[{}]`, a single empty candidate
(the caller is expected to guard upstream). -/
theorem C3_amended (target_cap : ℚ) :
    generate_candidate_combos target_cap [] 12 = [[]] := by
  have hg : greedy_combo target_cap [] = [] := by
    simp [greedy_combo]
  simp [generate_candidate_combos, uniqValues, uniqPairs, rawCandidates, hg,
    dictSet, sortedItemsDesc]

lemma foldl_dictSet_length_le {α β γ : Type} [DecidableEq α] (f : γ → α)
    (g : γ → β) :
    ∀ (l : List γ) (acc : List (α × β)),
    (l.foldl (fun a c => dictSet a (f c) (g c)) acc).length ≤
      acc.length + l.length := by
  intro l
  induction l with
  | nil => intro acc; simp
  | cons c rest ih =>
    intro acc
    rw [List.foldl_cons]
    have h1 := ih (dictSet acc (f c) (g c))
    have h2 := dictSet_length_le acc (f c) (g c)
    simp only [List.length_cons]
    omega

lemma foldl_dictSet_mem {α β γ : Type} [DecidableEq α] (f : γ → α)
    (g : γ → β) :
    ∀ (l : List γ) (acc : List (α × β)) (p : α × β),
    p ∈ l.foldl (fun a c => dictSet a (f c) (g c)) acc →
    p ∈ acc ∨ ∃ c ∈ l, p = (f c, g c) := by
  intro l
  induction l with
  | nil => intro acc p hp; exact Or.inl hp
  | cons c rest ih =>
    intro acc p hp
    rw [List.foldl_cons] at hp
    rcases ih (dictSet acc (f c) (g c)) p hp with hp | ⟨d, hd, hpd⟩
    · rcases dictSet_mem hp with hp | hp
      · exact Or.inl hp
      · exact Or.inr ⟨c, List.mem_cons_self _ _, hp⟩
    · exact Or.inr ⟨d, List.mem_cons_of_mem _ hd, hpd⟩

/-- C10: the generator builds at most seven raw candidates (the greedy one
plus at most six single-size ones), so the returned list has length at most
7 and the `max_suggestions = 12` truncation removes nothing. -/
theorem C10_at_most_seven (target_cap : ℚ) (sizes : List ℚ) :
    (generate_candidate_combos target_cap sizes 12).length ≤ 7 ∧
    (uniqValues target_cap sizes).take 12 = uniqValues target_cap sizes := by
  have hraw : (rawCandidates target_cap sizes).length ≤ 7 := by
    rw [rawCandidates]
    simp only [List.length_cons, List.length_map]
    have := List.length_take_le 6 sizes
    omega
  have huniq : (uniqValues target_cap sizes).length ≤ 7 := by
    rw [uniqValues, List.length_map, uniqPairs]
    have := foldl_dictSet_length_le sortedItemsDesc (fun c => c)
      (rawCandidates target_cap sizes) []
    simp only [List.length_nil, zero_add] at this
    omega
  constructor
  · simp only [generate_candidate_combos, List.length_map,
      List.length_insertionSort, List.length_take]
    omega
  · exact List.take_of_length_le (le_trans huniq (by norm_num))

lemma foldl_dictSet_ne_nil {α β γ : Type} [DecidableEq α] (f : γ → α)
    (g : γ → β) :
    ∀ (l : List γ) (acc : List (α × β)), acc ≠ [] →
    l.foldl (fun a c => dictSet a (f c) (g c)) acc ≠ [] := by
  intro l
  induction l with
  | nil => intro acc h; exact h
  | cons c rest ih =>
    intro acc _
    rw [List.foldl_cons]
    exact ih _ (dictSet_ne_nil _ _ _)

/-- Every returned candidate already occurs in the raw candidate list. -/
lemma mem_gen_mem_raw (target_cap : ℚ) (sizes : List ℚ) (m : ℕ) :
    ∀ c ∈ generate_candidate_combos target_cap sizes m,
      c ∈ rawCandidates target_cap sizes := by
  intro c hc
  simp only [generate_candidate_combos] at hc
  rcases List.mem_map.1 hc with ⟨pair, hpair, hsnd⟩
  have hp2 : pair ∈ ((uniqValues target_cap sizes).take m).map
      (fun c => (scoreOf target_cap c, c)) :=
    (List.mem_insertionSort scoreGE).1 hpair
  rcases List.mem_map.1 hp2 with ⟨c', hc', heq⟩
  have hcc : c = c' := by rw [← hsnd, ← heq]
  rw [hcc]
  have hmem := List.mem_of_mem_take hc'
  rw [uniqValues] at hmem
  rcases List.mem_map.1 hmem with ⟨p, hp, hps⟩
  rw [uniqPairs] at hp
  rcases foldl_dictSet_mem sortedItemsDesc (fun c => c) _ [] p hp with
    h | ⟨d, hd, hpd⟩
  · cases h
  · rw [← hps, hpd]
    exact hd

lemma pos_of_pyRound_ge_one (q : ℚ) (h : 1 ≤ pyRound q) : 0 < q := by
  have hfl : (q.floor : ℚ) ≤ q := by rw [ratFloor_eq]; exact Int.floor_le q
  rw [pyRound] at h
  split_ifs at h with h1 h2 h3
  · have : (1 : ℚ) ≤ (q.floor : ℚ) := by exact_mod_cast h
    linarith
  · have : (0 : ℚ) ≤ (q.floor : ℚ) := by exact_mod_cast (by omega : (0:ℤ) ≤ q.floor)
    linarith
  · have : (1 : ℚ) ≤ (q.floor : ℚ) := by exact_mod_cast h
    linarith
  · have : (0 : ℚ) ≤ (q.floor : ℚ) := by exact_mod_cast (by omega : (0:ℤ) ≤ q.floor)
    linarith

lemma single_count_pos (target_cap s : ℚ) (ht : 0 < target_cap) (hs : 0 < s) :
    1 ≤ pyCeil (target_cap / s) := by
  rw [pyCeil_eq]
  exact Int.ceil_pos.2 (div_pos ht hs)

/-- Every entry of every raw candidate has a key from the size list and a
count of at least 1, provided the rounded target is positive. -/
lemma raw_entries (target_cap : ℚ) (sizes : List ℚ) (hne : sizes ≠ [])
    (hpos : ∀ s ∈ sizes, 0 < s) (hround : 1 ≤ pyRound target_cap) :
    ∀ c ∈ rawCandidates target_cap sizes, c ≠ [] ∧
      ∀ p ∈ c, p.1 ∈ sizes ∧ 1 ≤ p.2 := by
  have ht : 0 < target_cap := pos_of_pyRound_ge_one _ hround
  intro c hc
  rw [rawCandidates] at hc
  rcases List.mem_cons.1 hc with hc | hc
  · subst hc
    exact ⟨greedy_ne_nil target_cap sizes hround hne hpos,
      greedy_entries target_cap sizes hpos⟩
  · rcases List.mem_map.1 hc with ⟨s, hs, hcs⟩
    have hss : s ∈ sizes := List.mem_of_mem_take hs
    have hs0 : 0 < s := hpos s hss
    rw [← hcs, singleCombo]
    refine ⟨by simp, ?_⟩
    intro p hp
    rcases List.mem_cons.1 hp with hp | hp
    · rw [hp]
      exact ⟨hss, single_count_pos target_cap s ht hs0⟩
    · cases hp

/-- C2 counterexample: `sizes = [2]` is non-empty and positive and
`target = 1/4` is positive, yet the returned list contains the empty combo,
whose total capacity is 0 — because `int(round(0.25)) = 0` makes the greedy
candidate empty. -/
theorem C2_cex :
    (0 : ℚ) < 1/4 ∧ [] ∈ generate_candidate_combos (1/4) [2] 12 ∧
    comboTotal ([] : Combo) = 0 := by decide

/-- C2 amended: for every non-empty list of positive sizes and every target
whose Python rounding is at least 1 (in particular every target ≥ 1, which
the application's input widget guarantees), `generate_candidate_combos`
returns at least one combo, and every returned combo is non-empty with all
counts ≥ 1, all sizes drawn from the input list, and a strictly positive
total capacity. -/
theorem C2_amended (target_cap : ℚ) (sizes : List ℚ)
    (hne : sizes ≠ []) (hpos : ∀ s ∈ sizes, 0 < s)
    (hround : 1 ≤ pyRound target_cap) :
    generate_candidate_combos target_cap sizes 12 ≠ [] ∧
    ∀ c ∈ generate_candidate_combos target_cap sizes 12,
      c ≠ [] ∧ (∀ p ∈ c, p.1 ∈ sizes ∧ 1 ≤ p.2) ∧ 0 < comboTotal c := by
  constructor
  · have h1 : uniqValues target_cap sizes ≠ [] := by
      rw [uniqValues]
      intro h
      have h2 := List.map_eq_nil_iff.1 h
      rw [uniqPairs, rawCandidates, List.foldl_cons] at h2
      exact foldl_dictSet_ne_nil sortedItemsDesc (fun c => c) _ _
        (dictSet_ne_nil _ _ _) h2
    simp only [generate_candidate_combos]
    intro hgen
    have h3 := List.map_eq_nil_iff.1 hgen
    have h4 : ((uniqValues target_cap sizes).take 12).map
        (fun c => (scoreOf target_cap c, c)) = [] := by
      have hl := congrArg List.length h3
      rw [List.length_insertionSort] at hl
      exact List.eq_nil_of_length_eq_zero hl
    have h5 := List.map_eq_nil_iff.1 h4
    rcases List.take_eq_nil_iff.1 h5 with h | h
    · exact absurd h (by norm_num)
    · exact h1 h
  · intro c hc
    have hraw := mem_gen_mem_raw target_cap sizes 12 c hc
    obtain ⟨hcne, hent⟩ := raw_entries target_cap sizes hne hpos hround c hraw
    refine ⟨hcne, hent, ?_⟩
    rw [comboTotal_eq_totalI c (fun p hp => by
      have := (hent p hp).2; omega), comboTotalI]
    apply List.sum_pos
    · intro x hx
      rcases List.mem_map.1 hx with ⟨p, hp, hxp⟩
      obtain ⟨hks, hcnt⟩ := hent p hp
      rw [← hxp]
      have hs0 : 0 < p.1 := hpos _ hks
      have hc1 : (1 : ℚ) ≤ (p.2 : ℚ) := by exact_mod_cast hcnt
      nlinarith
    · intro h
      exact hcne (List.map_eq_nil_iff.1 h)

/-- Witness for C2 at `target = 17`, `sizes = [2, 3, 5, 8]`. -/
theorem C2_witness :
    generate_candidate_combos 17 [2, 3, 5, 8] 12 ≠ [] ∧
    ∀ c ∈ generate_candidate_combos 17 [2, 3, 5, 8] 12,
      c ≠ [] ∧ (∀ p ∈ c, p.1 ∈ [2, 3, 5, 8] ∧ 1 ≤ p.2) ∧ 0 < comboTotal c :=
  C2_amended 17 [2, 3, 5, 8] (by decide) (by decide) (by decide)

/-- C7: the generator ranks the deduplicated (and truncated) candidates by
`score = 0.6 * closeness + 0.4 * unit_penalty`: the returned list is a
permutation of those candidates, pairwise sorted in descending score order,
and stable — any two candidates in generation order whose scores tie (or
are already descending) keep their relative order in the output. -/
theorem C7_ranking (target_cap : ℚ) (sizes : List ℚ)
    (_htc : 0 < target_cap) (_hpos : ∀ s ∈ sizes, 0 < s) :
    List.Perm (generate_candidate_combos target_cap sizes 12)
      ((uniqValues target_cap sizes).take 12) ∧
    (generate_candidate_combos target_cap sizes 12).Pairwise
      (fun a b => scoreOf target_cap b ≤ scoreOf target_cap a) ∧
    (∀ a b : Combo,
      List.Sublist [a, b] ((uniqValues target_cap sizes).take 12) →
      scoreOf target_cap b ≤ scoreOf target_cap a →
      List.Sublist [a, b]
        (generate_candidate_combos target_cap sizes 12)) := by
  -- the positivity hypotheses keep every candidate's unit count
  -- non-negative, the domain on which the Python scoring cannot raise
  refine ⟨?_, ?_, ?_⟩
  · simp only [generate_candidate_combos]
    have h1 := (List.perm_insertionSort scoreGE
      (((uniqValues target_cap sizes).take 12).map
        (fun c => (scoreOf target_cap c, c)))).map Prod.snd
    have h2 : (((uniqValues target_cap sizes).take 12).map
        (fun c => (scoreOf target_cap c, c))).map Prod.snd =
        (uniqValues target_cap sizes).take 12 := by
      rw [List.map_map]
      exact List.map_id _
    rw [h2] at h1
    exact h1
  · simp only [generate_candidate_combos]
    rw [List.pairwise_map]
    have hs := List.sorted_insertionSort scoreGE
      (((uniqValues target_cap sizes).take 12).map
        (fun c => (scoreOf target_cap c, c)))
    refine hs.imp_of_mem ?_
    intro p q hp hq hpq
    rcases List.mem_map.1 ((List.mem_insertionSort scoreGE).1 hp) with
      ⟨cp, -, hcp⟩
    rcases List.mem_map.1 ((List.mem_insertionSort scoreGE).1 hq) with
      ⟨cq, -, hcq⟩
    rw [← hcp, ← hcq] at hpq ⊢
    exact hpq
  · intro a b hab hscore
    simp only [generate_candidate_combos]
    have h1 : List.Sublist
        [(scoreOf target_cap a, a), (scoreOf target_cap b, b)]
        (((uniqValues target_cap sizes).take 12).map
          (fun c => (scoreOf target_cap c, c))) := by
      simpa using hab.map (fun c => (scoreOf target_cap c, c))
    have h2 : List.Sublist
        [(scoreOf target_cap a, a), (scoreOf target_cap b, b)]
        (List.insertionSort scoreGE
          (((uniqValues target_cap sizes).take 12).map
            (fun c => (scoreOf target_cap c, c)))) :=
      List.pair_sublist_insertionSort hscore h1
    simpa using h2.map Prod.snd

/-- Witness for C7 at `target = 17`, `sizes = [2, 3, 5, 8]`. -/
theorem C7_witness :
    List.Perm (generate_candidate_combos 17 [2, 3, 5, 8] 12)
      ((uniqValues 17 [2, 3, 5, 8]).take 12) :=
  (C7_ranking 17 [2, 3, 5, 8] (by decide) (by decide)).1

/-! Characterisation of the row-resolution functions. -/

lemma exactIdx_spec :
    ∀ (cats : Catalog) (cap : ℚ) (i : ℕ), exactIdx cats cap = some i →
    cats[i]? = some (some cap) ∧ ∀ j < i, cats[j]? ≠ some (some cap) := by
  intro cats
  induction cats with
  | nil => intro cap i h; cases h
  | cons o rest ih =>
    intro cap i h
    rw [exactIdx] at h
    by_cases ho : o = some cap
    · rw [if_pos ho] at h
      injection h with h
      subst h
      refine ⟨by simpa using ho, ?_⟩
      intro j hj
      omega
    · rw [if_neg ho] at h
      rcases Option.map_eq_some'.1 h with ⟨i', hi', rfl⟩
      obtain ⟨h1, h2⟩ := ih cap i' hi'
      refine ⟨by simpa using h1, ?_⟩
      intro j hj
      cases j with
      | zero => simpa using ho
      | succ j' =>
        have := h2 j' (by omega)
        simpa using this

lemma exactIdx_none :
    ∀ (cats : Catalog) (cap : ℚ), exactIdx cats cap = none →
    ∀ (j : ℕ) (v : ℚ), cats[j]? = some (some v) → v ≠ cap := by
  intro cats
  induction cats with
  | nil => intro cap _ j v h; simp at h
  | cons o rest ih =>
    intro cap h j v hj
    rw [exactIdx] at h
    by_cases ho : o = some cap
    · rw [if_pos ho] at h; cases h
    · rw [if_neg ho] at h
      cases j with
      | zero =>
        simp only [List.getElem?_cons_zero, Option.some_inj] at hj
        intro hv
        exact ho (by rw [hj, hv])
      | succ j' =>
        have := Option.map_eq_none'.1 h
        exact ih cap this j' v (by simpa using hj)

lemma numEntries_ge :
    ∀ (cats : Catalog) (k : ℕ) (p : ℕ × ℚ), p ∈ numEntries cats k → k ≤ p.1 := by
  intro cats
  induction cats with
  | nil => intro k p h; cases h
  | cons o rest ih =>
    intro k p h
    cases o with
    | some v =>
      rw [numEntries] at h
      rcases List.mem_cons.1 h with h | h
      · rw [h]
      · have := ih (k + 1) p h
        omega
    | none =>
      rw [numEntries] at h
      have := ih (k + 1) p h
      omega

lemma numEntries_pairwise :
    ∀ (cats : Catalog) (k : ℕ),
    (numEntries cats k).Pairwise (fun a b => a.1 < b.1) := by
  intro cats
  induction cats with
  | nil => intro k; simp [numEntries]
  | cons o rest ih =>
    intro k
    cases o with
    | some v =>
      rw [numEntries]
      refine List.pairwise_cons.2 ⟨?_, ih (k + 1)⟩
      intro p hp
      have := numEntries_ge rest (k + 1) p hp
      omega
    | none => rw [numEntries]; exact ih (k + 1)

lemma mem_numEntries :
    ∀ (cats : Catalog) (k j : ℕ) (v : ℚ),
    (j, v) ∈ numEntries cats k ↔
      k ≤ j ∧ cats[j - k]? = some (some v) := by
  intro cats
  induction cats with
  | nil =>
    intro k j v
    simp [numEntries]
  | cons o rest ih =>
    intro k j v
    cases o with
    | some w =>
      rw [numEntries]
      constructor
      · intro h
        rcases List.mem_cons.1 h with h | h
        · rw [Prod.mk.injEq] at h
          obtain ⟨rfl, rfl⟩ := h
          simp
        · obtain ⟨h1, h2⟩ := (ih (k + 1) j v).1 h
          refine ⟨by omega, ?_⟩
          have hjk : j - k = (j - (k + 1)) + 1 := by omega
          rw [hjk]
          simpa using h2
      · rintro ⟨h1, h2⟩
        rcases Nat.eq_or_lt_of_le h1 with rfl | hlt
        · simp only [Nat.sub_self, List.getElem?_cons_zero,
            Option.some_inj] at h2
          exact List.mem_cons.2 (Or.inl (by rw [h2]))
        · refine List.mem_cons.2 (Or.inr ((ih (k + 1) j v).2 ⟨by omega, ?_⟩))
          have hjk : j - k = (j - (k + 1)) + 1 := by omega
          rw [hjk] at h2
          simpa using h2
    | none =>
      rw [numEntries, ih (k + 1) j v]
      constructor
      · rintro ⟨h1, h2⟩
        refine ⟨by omega, ?_⟩
        have hjk : j - k = (j - (k + 1)) + 1 := by omega
        rw [hjk]
        simpa using h2
      · rintro ⟨h1, h2⟩
        rcases Nat.eq_or_lt_of_le h1 with rfl | hlt
        · simp at h2
        · refine ⟨by omega, ?_⟩
          have hjk : j - k = (j - (k + 1)) + 1 := by omega
          rw [hjk] at h2
          simpa using h2

lemma idxminAux_ne_none (cap : ℚ) (x : ℕ × ℚ) (l : List (ℕ × ℚ)) :
    idxminAux cap (x :: l) ≠ none := by
  cases h : idxminAux cap l with
  | none =>
    rw [idxminAux, h]
    simp
  | some f =>
    rw [idxminAux, h]
    show (if |f.2 - cap| < |x.2 - cap| then some f else some x) ≠ none
    split_ifs <;> simp

lemma idxminAux_spec (cap : ℚ) :
    ∀ (l : List (ℕ × ℚ)), l.Pairwise (fun a b => a.1 < b.1) →
    ∀ e, idxminAux cap l = some e →
    e ∈ l ∧ ∀ f ∈ l, |e.2 - cap| ≤ |f.2 - cap| ∧
      (|f.2 - cap| ≤ |e.2 - cap| → e.1 ≤ f.1) := by
  intro l
  induction l with
  | nil => intro _ e h; cases h
  | cons x rest ih =>
    intro hpair e h
    rw [idxminAux] at h
    obtain ⟨hx, hrest⟩ := List.pairwise_cons.1 hpair
    cases hr : idxminAux cap rest with
    | none =>
      rw [hr] at h
      have h2 : some x = some e := h
      injection h2 with h2
      subst h2
      have hnil : rest = [] := by
        cases rest with
        | nil => rfl
        | cons y ys => exact absurd hr (idxminAux_ne_none cap y ys)
      subst hnil
      exact ⟨List.mem_singleton.2 rfl, by
        intro f hf
        rcases List.mem_singleton.1 hf with rfl
        exact ⟨le_refl _, fun _ => le_refl _⟩⟩
    | some f =>
      rw [hr] at h
      have h2 : (if |f.2 - cap| < |x.2 - cap| then some f else some x) =
        some e := h
      obtain ⟨hf1, hf2⟩ := ih hrest f hr
      split_ifs at h2 with hlt
      · injection h2 with h2
        subst h2
        refine ⟨List.mem_cons_of_mem _ hf1, ?_⟩
        intro g hg
        rcases List.mem_cons.1 hg with rfl | hg
        · exact ⟨le_of_lt hlt, fun hc => absurd (lt_of_le_of_lt hc hlt)
            (lt_irrefl _)⟩
        · exact hf2 g hg
      · injection h2 with h2
        subst h2
        push_neg at hlt
        refine ⟨List.mem_cons_self _ _, ?_⟩
        intro g hg
        rcases List.mem_cons.1 hg with rfl | hg
        · exact ⟨le_refl _, fun _ => le_refl _⟩
        · exact ⟨le_trans hlt (hf2 g hg).1, fun _ => le_of_lt (hx g hg)⟩

/-- Characterisation of `find_nearest_row` when it returns a row: the row is
numeric, at minimal distance, and first among the minimisers. -/
lemma find_nearest_row_spec (cats : Catalog) (cap : ℚ) (i : ℕ)
    (h : find_nearest_row cats cap = some i) :
    ∃ v, cats[i]? = some (some v) ∧
      ∀ j w, cats[j]? = some (some w) →
        |v - cap| ≤ |w - cap| ∧ (|w - cap| ≤ |v - cap| → i ≤ j) := by
  rw [find_nearest_row] at h
  rcases Option.map_eq_some'.1 h with ⟨e, he, rfl⟩
  obtain ⟨he1, he2⟩ := idxminAux_spec cap (numEntries cats 0)
    (numEntries_pairwise cats 0) e he
  have hc := (mem_numEntries cats 0 e.1 e.2).1 (by simpa using he1)
  refine ⟨e.2, by simpa using hc.2, ?_⟩
  intro j w hj
  have hjw : (j, w) ∈ numEntries cats 0 :=
    (mem_numEntries cats 0 j w).2 ⟨Nat.zero_le _, by simpa using hj⟩
  exact he2 (j, w) hjw

lemma numEntries_nil_iff :
    ∀ (cats : Catalog) (k : ℕ),
    numEntries cats k = [] ↔ ∀ o ∈ cats, o = none := by
  intro cats
  induction cats with
  | nil => intro k; simp [numEntries]
  | cons o rest ih =>
    intro k
    cases o with
    | some v => simp [numEntries]
    | none =>
      rw [numEntries, ih (k + 1)]
      simp

/-- When a row with numeric capacity exists, `find_nearest_row` finds one. -/
lemma find_nearest_row_isSome (cats : Catalog) (cap : ℚ)
    (h : numEntries cats 0 ≠ []) :
    ∃ i, find_nearest_row cats cap = some i := by
  rw [find_nearest_row]
  cases hne : numEntries cats 0 with
  | nil => exact absurd hne h
  | cons x l =>
    cases he : idxminAux cap (x :: l) with
    | none => exact absurd he (idxminAux_ne_none cap x l)
    | some e => exact ⟨e.1, rfl⟩

/-- An exact match makes the nearest-neighbour lookup return the very same
first exact row: the automatic exact-then-nearest resolution equals plain
nearest-neighbour resolution. -/
lemma resolveIdx_eq_nearest (cats : Catalog) (cap : ℚ) :
    resolveIdx cats cap = find_nearest_row cats cap := by
  cases he : exactIdx cats cap with
  | none => rw [resolveIdx, he]
  | some i =>
    rw [resolveIdx, he]
    obtain ⟨hget, hfirst⟩ := exactIdx_spec cats cap i he
    have hnum : numEntries cats 0 ≠ [] := by
      intro hnil
      have := (numEntries_nil_iff cats 0).1 hnil
      have hmem : (some cap) ∈ cats := by
        rcases List.getElem?_eq_some_iff.1 hget with ⟨hlt, hi⟩
        exact hi ▸ List.getElem_mem _
      cases this _ hmem
    obtain ⟨i', hi'⟩ := find_nearest_row_isSome cats cap hnum
    rw [hi']
    obtain ⟨v', hget', hmin⟩ := find_nearest_row_spec cats cap i' hi'
    obtain ⟨hd1, hd2⟩ := hmin i cap hget
    rw [sub_self, abs_zero] at hd1 hd2
    have hv' : v' = cap := by
      have := abs_nonneg (v' - cap)
      have heq : |v' - cap| = 0 := le_antisymm hd1 this
      have := abs_eq_zero.1 heq
      linarith
    have hii' : i' ≤ i := hd2 (by rw [hv', sub_self, abs_zero])
    have hii : i ≤ i' := by
      by_contra hlt
      push_neg at hlt
      exact hfirst i' hlt (by rw [hget', hv'])
    rw [le_antisymm hii' hii]

/-- C4: when row resolution returns a row it is the first catalog row whose
capacity-column value equals the instance size; exactly when no row matches
it is instead the first row minimising `|capacity - size|` over the rows
with a numeric capacity (ties to the earliest row); and on catalog
capacities `[2, 5, 9]` a requested size 6 picks the row holding 5. -/
theorem C4_row_resolution :
    (∀ (cats : Catalog) (cap : ℚ) (i : ℕ), resolveIdx cats cap = some i →
      (cats[i]? = some (some cap) ∧
        ∀ j < i, cats[j]? ≠ some (some cap)) ∨
      ((∀ (j : ℕ) (v : ℚ), cats[j]? = some (some v) → v ≠ cap) ∧
       ∃ v, cats[i]? = some (some v) ∧
         ∀ (j : ℕ) (w : ℚ), cats[j]? = some (some w) →
         |v - cap| ≤ |w - cap| ∧ (|w - cap| ≤ |v - cap| → i ≤ j))) ∧
    resolveIdx [some 2, some 5, some 9] 6 = some 1 := by
  constructor
  · intro cats cap i h
    cases he : exactIdx cats cap with
    | some i' =>
      rw [resolveIdx, he] at h
      have h2 : some i' = some i := h
      injection h2 with h2
      subst h2
      exact Or.inl (exactIdx_spec cats cap i' he)
    | none =>
      rw [resolveIdx, he] at h
      exact Or.inr ⟨exactIdx_none cats cap he,
        find_nearest_row_spec cats cap i h⟩
  · decide

/-- Witness for C4, resolving size 5 against catalog capacities
`[2, 5, 9]` (an exact match at row 1). -/
theorem C4_witness :
    (([some 2, some 5, some 9] : Catalog)[1]? = some (some (5 : ℚ)) ∧
      ∀ j < 1, ([some 2, some 5, some 9] : Catalog)[j]? ≠
        some (some (5 : ℚ))) ∨
    ((∀ (j : ℕ) (v : ℚ),
        ([some 2, some 5, some 9] : Catalog)[j]? = some (some v) →
        v ≠ (5 : ℚ)) ∧
     ∃ v, ([some 2, some 5, some 9] : Catalog)[1]? = some (some v) ∧
       ∀ (j : ℕ) (w : ℚ),
         ([some 2, some 5, some 9] : Catalog)[j]? = some (some w) →
         |v - 5| ≤ |w - 5| ∧ (|w - 5| ≤ |v - 5| → 1 ≤ j)) :=
  C4_row_resolution.1 [some 2, some 5, some 9] 5 1 (by decide)

/-- C5 counterexample: on a catalog whose only row has a non-numeric
capacity, the automatic enrichment loop evaluates `None.to_dict()` and
raises (modelled as an error) instead of yielding a placeholder row. -/
theorem C5_cex : autoEnrich [none] [5] 0 = Except.error () := rfl

/-- C5 amended: on a catalog with no numeric capacity value the automatic
enrichment loop raises (`None.to_dict()`, an `AttributeError`) for every
single instance — the behaviour the claim describes holds only on the manual path,
which yields one `{'_cap_input': cap}` placeholder row per entered size
with the 1-based instance index preserved, no instance disappearing. -/
theorem C5_amended (cats : Catalog) (hnone : ∀ o ∈ cats, o = none) :
    (∀ cap : ℚ, autoChosen cats cap = Except.error ()) ∧
    (∀ (caps : List ℚ) (k : ℕ),
      manualEnrich true cats caps k = Except.ok (placeholderRows caps k)) := by
  have hnum : numEntries cats 0 = [] := (numEntries_nil_iff cats 0).2 hnone
  have hnear : ∀ cap : ℚ, find_nearest_row cats cap = none := by
    intro cap
    rw [find_nearest_row, hnum]
    rfl
  have hex : ∀ cap : ℚ, exactIdx cats cap = none := by
    intro cap
    cases he : exactIdx cats cap with
    | none => rfl
    | some i =>
      obtain ⟨hget, -⟩ := exactIdx_spec cats cap i he
      rcases List.getElem?_eq_some_iff.1 hget with ⟨hlt, hi⟩
      cases hnone _ (hi ▸ List.getElem_mem _)
  constructor
  · intro cap
    rw [autoChosen, resolveIdx, hex cap, hnear cap]
  · intro caps
    induction caps with
    | nil => intro k; rfl
    | cons cap rest ih =>
      intro k
      have hm : manualChosen true cats cap =
          Except.ok (RRow.placeholder cap) := by
        rw [manualChosen, if_pos rfl, hnear cap]
      rw [manualEnrich, hm, ih (k + 1), placeholderRows]

/-- Witness for C5 on the catalog `[none]` with manual size 5. -/
theorem C5_witness :
    autoChosen [none] 5 = Except.error () ∧
    manualEnrich true [none] [5] 0 = Except.ok (placeholderRows [5] 0) :=
  ⟨(C5_amended [none] (by decide)).1 5,
   (C5_amended [none] (by decide)).2 [5] 0⟩

/-- The per-value lookups of the two enrichment paths agree as soon as any
catalog row has a numeric capacity. -/
lemma chosen_agree (cats : Catalog) (cap : ℚ)
    (hnum : numEntries cats 0 ≠ []) :
    manualChosen true cats cap = autoChosen cats cap := by
  obtain ⟨i, hi⟩ := find_nearest_row_isSome cats cap hnum
  rw [manualChosen, if_pos rfl, autoChosen, resolveIdx_eq_nearest, hi]

/-- C8 counterexample: for the same multiset of sizes `{2, 8}` on the
catalog with capacities `[2, 8]`, the manual path (entered `2+8`) resolves
its instance 1 to row 0 while the generated-combo path (which expands sorted
descending to `[8, 2]`) resolves instance 1 to row 1: the instance ordering
of the two paths differs. -/
theorem C8_cex :
    manualEnrich true [some 2, some 8] [2, 8] 0 =
      Except.ok [(1, RRow.fromCatalog 0), (2, RRow.fromCatalog 1)] ∧
    autoEnrich [some 2, some 8] (expand_combo_instances [(2, 1), (8, 1)]) 0 =
      Except.ok [(1, RRow.fromCatalog 1), (2, RRow.fromCatalog 0)] := by
  constructor <;> rfl

/-- C8 amended: the manual path runs the same per-instance row resolution
as the automatic path — nearest-neighbour lookup coincides with
exact-match-then-nearest — so on the same *sequence* of capacities the two
paths produce identical enriched rows (whenever some catalog row has a
numeric capacity); the paths differ only in instance ordering, the manual
path keeping the user's entry order while the generated path expands its
combo sorted descending. -/
theorem C8_amended (cats : Catalog) (caps : List ℚ)
    (hnum : numEntries cats 0 ≠ []) (k : ℕ) :
    manualEnrich true cats caps k = autoEnrich cats caps k := by
  induction caps generalizing k with
  | nil => rfl
  | cons cap rest ih =>
    rw [manualEnrich, autoEnrich, chosen_agree cats cap hnum]
    cases hc : autoChosen cats cap with
    | error e => rfl
    | ok r => rw [ih]

/-- Witness for C8 on the catalog `[2, 8]` with manual sizes `[2, 8]`. -/
theorem C8_witness :
    manualEnrich true [some 2, some 8] [2, 8] 0 =
      autoEnrich [some 2, some 8] [2, 8] 0 :=
  C8_amended [some 2, some 8] [2, 8] (by decide) 0

/-- A standalone-word `hp` occurrence is in particular an `hp` substring. -/
lemma hasWordHP_sub :
    ∀ (s : List Char) (prev : Option Char), hasWordHP prev s = true →
    hasSubstr ("hp".toList) s = true := by
  intro s
  induction s with
  | nil =>
    intro prev h
    simp [hasWordHP] at h
  | cons c rest ih =>
    intro prev h
    cases rest with
    | nil => simp [hasWordHP] at h
    | cons p rest2 =>
      rw [hasWordHP, Bool.or_eq_true] at h
      rcases h with hA | hB
      · have hA' : (decide (c = 'h') && decide (p = 'p') &&
            boundaryOK prev rest2) = true := hA
        rw [Bool.and_eq_true, Bool.and_eq_true] at hA'
        obtain ⟨⟨hc, hp⟩, -⟩ := hA'
        have hc' : c = 'h' := of_decide_eq_true hc
        have hp' : p = 'p' := of_decide_eq_true hp
        subst hc'
        subst hp'
        rw [hasSubstr, Bool.or_eq_true]
        left
        simp [List.isPrefixOf]
      · rw [hasSubstr, Bool.or_eq_true]
        exact Or.inr (ih (some c) hB)

lemma find?_congr {α : Type} (l : List α) (p q : α → Bool)
    (h : ∀ x ∈ l, p x = q x) : l.find? p = l.find? q := by
  induction l with
  | nil => rfl
  | cons x rest ih =>
    by_cases hx : q x = true
    · rw [List.find?_cons_of_pos _
        (by rw [h x (List.mem_cons_self _ _)]; exact hx),
        List.find?_cons_of_pos _ hx]
    · rw [List.find?_cons_of_neg _
        (by rw [h x (List.mem_cons_self _ _)]; exact hx),
        List.find?_cons_of_neg _ hx,
        ih (fun y hy => h y (List.mem_cons_of_mem _ hy))]

/-- C9 counterexample: a column named `horsepower` does not contain `hp` as
a substring, yet the Outdoor detection returns it (via the second tier) —
refuting the claim that a match is found exactly when some column contains
`hp`. -/
theorem C9_cex :
    hasSubstr ("hp".toList) ("horsepower".toList) = false ∧
    find_capacity_column_by_type ["horsepower".toList] ("Outdoor".toList) =
      some ("horsepower".toList) := by decide

/-- C9 amended: for unit kind Outdoor the first tier returns the first
column whose normalized name contains `hp` (its `capacity or hp` conjunct
is redundant); when no name contains `hp`, the standalone-word `hp`
alternative of the second tier can never fire, and the third tier never
fires either, so detection reduces to: first column containing `hp`, else
first column containing `horsepower`, else no match. -/
theorem C9_amended (cols : List (List Char)) :
    find_capacity_column_by_type cols ("Outdoor".toList) =
      (cols.find? (fun c => hasSubstr ("hp".toList) (normalize_name c))).orElse
        (fun _ => cols.find? (fun c =>
          hasSubstr ("horsepower".toList) (normalize_name c))) := by
  rw [find_capacity_column_by_type, if_neg (by decide)]
  have h1 : (fun c => hasSubstr ("hp".toList) (normalize_name c) &&
      (hasSubstr ("capacity".toList) (normalize_name c) ||
       hasSubstr ("hp".toList) (normalize_name c))) =
      (fun c => hasSubstr ("hp".toList) (normalize_name c)) := by
    funext c
    cases hasSubstr ("hp".toList) (normalize_name c) <;>
      cases hasSubstr ("capacity".toList) (normalize_name c) <;> rfl
  rw [h1]
  cases hhp : cols.find?
      (fun c => hasSubstr ("hp".toList) (normalize_name c)) with
  | some c => rfl
  | none =>
    have hno : ∀ c ∈ cols,
        hasSubstr ("hp".toList) (normalize_name c) = false := by
      intro c hc
      have := List.find?_eq_none.1 hhp c hc
      simpa using this
    have h2 : cols.find? (fun c =>
        hasSubstr ("horsepower".toList) (normalize_name c) ||
        hasWordHP none (normalize_name c)) =
        cols.find? (fun c =>
          hasSubstr ("horsepower".toList) (normalize_name c)) := by
      apply find?_congr
      intro c hc
      have hw : hasWordHP none (normalize_name c) = false := by
        cases hb : hasWordHP none (normalize_name c)
        · rfl
        · have := hasWordHP_sub (normalize_name c) none hb
          rw [hno c hc] at this
          cases this
      rw [hw, Bool.or_false]
    rw [h2]
    cases hhorse : cols.find? (fun c =>
        hasSubstr ("horsepower".toList) (normalize_name c)) with
    | some c => rfl
    | none =>
      have hnoh : ∀ c ∈ cols,
          hasSubstr ("horsepower".toList) (normalize_name c) = false := by
        intro c hc
        have := List.find?_eq_none.1 hhorse c hc
        simpa using this
      have h3 : cols.find? (fun c =>
          hasSubstr ("capacity".toList) (normalize_name c) &&
          (hasSubstr ("hp".toList) (normalize_name c) ||
           hasSubstr ("horsepower".toList) (normalize_name c))) = none := by
        rw [List.find?_eq_none]
        intro c hc
        rw [hno c hc, hnoh c hc]
        simp
      rw [h3]
      rfl

end CoolCraft
